import Mathlib

/-!
Verification development for the PLUMED grid engine (`src/tools/Grid.h`,
`src/vesselbase/FunctionVessel.cpp`).  The header `Grid.h` declares the
interface; the corresponding `Grid.cpp` implementation file is not part of
this source tree, so the bodies of the grid operations are modelled from the
specification document, while `BiasWeight`, `ProbWeight` (defined inline in
`Grid.h`) and `FunctionVessel::applyForce` (in `FunctionVessel.cpp`) are
embedded directly from the source.
-/

namespace PLMD

/-! ## Coordinate mapper: flat index ↔ multi-index

Modelled from the spec: "Row-major flattening is used: the last axis varies
fastest", with the total lattice size the product of the per-axis point
counts. -/

/-- Modelled from the spec: `Grid::getIndex` (body in the missing `Grid.cpp`).
Row-major flattening of a multi-index, last axis varying fastest: the stride
of an axis is the product of the point counts of all later axes. -/
def getIndex : List ℕ → List ℕ → ℕ
  | _ :: ns, i :: is => i * ns.prod + getIndex ns is
  | _, _ => 0

/-- Modelled from the spec: `Grid::getIndices` (body in the missing
`Grid.cpp`).  Inverse of the row-major flattening: successive division by
the strides. -/
def getIndices : List ℕ → ℕ → List ℕ
  | [], _ => []
  | _ :: ns, f => f / ns.prod :: getIndices ns (f % ns.prod)

/-- The per-axis strides of the row-major flattening: for each axis, the
product of the point counts of the later axes. -/
def strides : List ℕ → List ℕ
  | [] => []
  | _ :: ns => ns.prod :: strides ns

theorem getIndex_nil (is : List ℕ) : getIndex [] is = 0 := by
  cases is <;> rfl

theorem getIndex_cons (n : ℕ) (ns : List ℕ) (i : ℕ) (is : List ℕ) :
    getIndex (n :: ns) (i :: is) = i * ns.prod + getIndex ns is := rfl

/-- A pointwise in-range multi-index flattens to an in-range flat index. -/
theorem getIndex_lt_prod :
    ∀ (nbin m : List ℕ), List.Forall₂ (· < ·) m nbin →
      getIndex nbin m < nbin.prod := by
  intro nbin m h
  induction h with
  | nil => simp [getIndex]
  | @cons i n is ns hin _ ih =>
    rw [getIndex_cons, List.prod_cons]
    calc i * ns.prod + getIndex ns is
        < i * ns.prod + ns.prod := Nat.add_lt_add_left ih _
      _ = (i + 1) * ns.prod := by ring
      _ ≤ n * ns.prod := Nat.mul_le_mul_right _ (Nat.succ_le_of_lt hin)

theorem getIndices_getIndex :
    ∀ (nbin m : List ℕ), List.Forall₂ (· < ·) m nbin →
      getIndices nbin (getIndex nbin m) = m := by
  intro nbin m h
  induction h with
  | nil => rfl
  | @cons i n is ns _ htail ih =>
    have hlt : getIndex ns is < ns.prod := getIndex_lt_prod ns is htail
    have hp : 0 < ns.prod := Nat.lt_of_le_of_lt (Nat.zero_le _) hlt
    rw [getIndex_cons, getIndices]
    have hdiv : (i * ns.prod + getIndex ns is) / ns.prod = i := by
      rw [Nat.add_comm, Nat.add_mul_div_right _ _ hp, Nat.div_eq_of_lt hlt,
        Nat.zero_add]
    have hmod : (i * ns.prod + getIndex ns is) % ns.prod = getIndex ns is := by
      rw [Nat.add_comm, Nat.add_mul_mod_self_right, Nat.mod_eq_of_lt hlt]
    rw [hdiv, hmod, ih]

theorem getIndex_getIndices :
    ∀ (nbin : List ℕ) (f : ℕ), f < nbin.prod →
      getIndex nbin (getIndices nbin f) = f := by
  intro nbin
  induction nbin with
  | nil => intro f hf; simp at hf; simp [hf, getIndices, getIndex]
  | cons n ns ih =>
    intro f hf
    rw [List.prod_cons] at hf
    have hp : 0 < ns.prod := by
      rcases Nat.eq_zero_or_pos ns.prod with h0 | h0
      · rw [h0, Nat.mul_zero] at hf; exact absurd hf (Nat.not_lt_zero _)
      · exact h0
    rw [getIndices, getIndex_cons, ih _ (Nat.mod_lt _ hp)]
    rw [Nat.mul_comm]
    exact Nat.div_add_mod f ns.prod

/-- The flat index as a dot product of the multi-index with the strides. -/
theorem getIndex_eq_sum_strides :
    ∀ (nbin m : List ℕ),
      getIndex nbin m = (List.zipWith (· * ·) m (strides nbin)).sum := by
  intro nbin
  induction nbin with
  | nil => intro m; cases m <;> simp [getIndex, strides]
  | cons n ns ih =>
    intro m
    cases m with
    | nil => simp [getIndex, strides]
    | cons i is => simp [getIndex_cons, strides, ih]

/-- Incrementing the last multi-index component by one increments the flat
index by exactly one. -/
theorem getIndex_last_succ :
    ∀ (nbin pre : List ℕ) (j : ℕ), (pre ++ [j]).length = nbin.length →
      getIndex nbin (pre ++ [j + 1]) = getIndex nbin (pre ++ [j]) + 1 := by
  intro nbin pre
  induction pre generalizing nbin with
  | nil =>
    intro j hlen
    cases nbin with
    | nil => simp at hlen
    | cons n ns =>
      cases ns with
      | nil => simp [getIndex_cons, getIndex_nil]
      | cons n2 ns2 => simp at hlen
  | cons p ps ih =>
    intro j hlen
    cases nbin with
    | nil => simp at hlen
    | cons n ns =>
      simp only [List.cons_append, getIndex_cons]
      rw [ih ns j (by simpa using hlen)]
      ring

/-- With at least two points on every axis, the strides strictly decrease
from earlier axes to later ones. -/
theorem strides_strict_anti :
    ∀ nbin : List ℕ, (∀ n ∈ nbin, 2 ≤ n) →
      List.Chain' (· > ·) (strides nbin) := by
  intro nbin h
  induction nbin with
  | nil => simp [strides]
  | cons n ns ih =>
    have hns : ∀ k ∈ ns, 2 ≤ k := fun k hk => h k (List.mem_cons_of_mem _ hk)
    cases ns with
    | nil => simp [strides]
    | cons m ms =>
      have hm : 2 ≤ m := hns m (List.mem_cons_self _ _)
      have hms : 0 < ms.prod :=
        List.prod_pos fun a ha =>
          Nat.lt_of_lt_of_le (by norm_num)
            (hns a (List.mem_cons_of_mem _ ha))
      have hgt : (m :: ms).prod > ms.prod := by
        rw [List.prod_cons]
        calc ms.prod < 2 * ms.prod := by omega
          _ ≤ m * ms.prod := Nat.mul_le_mul_right _ hm
      rw [strides, List.chain'_cons']
      constructor
      · intro y hy
        have : y = ms.prod := by
          simp [strides] at hy; exact hy.symm
        rw [this]; exact hgt
      · exact ih hns

/-! ## Periodic wrapping and boundary errors (Coordinate Mapper) -/

/-- Modelled from the spec: per-axis resolution of a (possibly out-of-range)
multi-index component, as used by `Grid::getIndex` / `Grid::getIndices` /
`Grid::getValue` (bodies in the missing `Grid.cpp`).  A component on a
periodic axis is reduced with a true mathematical modulo of the axis point
count; on a non-periodic axis a component outside `[0, n)` is a boundary
error, reported as `none`. -/
def wrapComponent (periodic : Bool) (n : ℕ) (i : ℤ) : Option ℕ :=
  if periodic then some (i % (n : ℤ)).toNat
  else if 0 ≤ i ∧ i < (n : ℤ) then some i.toNat else none

/-- Modelled from the spec: a coordinate is snapped to the nearest lower
grid point of its axis (`⌊(x - min)/dx⌋`), honoring periodic wraparound. -/
def coordComponent (periodic : Bool) (gmin dx : ℚ) (n : ℕ) (x : ℚ) :
    Option ℕ :=
  wrapComponent periodic n ⌊(x - gmin) / dx⌋

/-- Modelled from the spec: resolution of a full multi-index, failing with a
boundary error when any non-periodic component is out of range. -/
def wrapIndices : List ℕ → List Bool → List ℤ → Option (List ℕ)
  | [], [], [] => some []
  | n :: ns, p :: ps, i :: is =>
    match wrapComponent p n i, wrapIndices ns ps is with
    | some c, some cs => some (c :: cs)
    | _, _ => none
  | _, _, _ => none

/-- C1: for every grid and every flat index `i` in range, converting `i` to a
multi-index and back yields `i`; and for every in-range multi-index `m`,
converting `m` to a flat index and back yields `m`. -/
theorem grid_index_roundtrip (nbin : List ℕ) :
    (∀ i : ℕ, i < nbin.prod → getIndex nbin (getIndices nbin i) = i) ∧
    (∀ m : List ℕ, List.Forall₂ (· < ·) m nbin →
      getIndices nbin (getIndex nbin m) = m) :=
  ⟨fun i hi => getIndex_getIndices nbin i hi,
   fun m hm => getIndices_getIndex nbin m hm⟩

/-- Witness for C1 on the 2×3 grid. -/
theorem grid_index_roundtrip_witness :
    getIndex [2, 3] (getIndices [2, 3] 4) = 4 ∧
    getIndices [2, 3] (getIndex [2, 3] [1, 2]) = [1, 2] :=
  ⟨(grid_index_roundtrip [2, 3]).1 4 (by decide),
   (grid_index_roundtrip [2, 3]).2 [1, 2] (by decide)⟩

/-- C5: the flattening is row-major with the last axis varying fastest:
bumping the last component bumps the flat index by one, the flat index is
the dot product of the multi-index with the strides (each axis's stride
being the product of the point counts of all later axes), and earlier axes
have strictly larger strides (for axes with at least two points). -/
theorem row_major_last_fastest :
    (∀ (nbin pre : List ℕ) (j : ℕ), (pre ++ [j]).length = nbin.length →
      getIndex nbin (pre ++ [j + 1]) = getIndex nbin (pre ++ [j]) + 1) ∧
    (∀ nbin m : List ℕ,
      getIndex nbin m = (List.zipWith (· * ·) m (strides nbin)).sum) ∧
    (∀ nbin : List ℕ, (∀ n ∈ nbin, 2 ≤ n) →
      List.Chain' (· > ·) (strides nbin)) :=
  ⟨getIndex_last_succ, getIndex_eq_sum_strides, strides_strict_anti⟩

/-- Witness for C5 on the 2×3 grid. -/
theorem row_major_last_fastest_witness :
    getIndex [2, 3] [1, 1 + 1] = getIndex [2, 3] [1, 1] + 1 ∧
    getIndex [2, 3] [1, 2] = (List.zipWith (· * ·) [1, 2] (strides [2, 3])).sum ∧
    List.Chain' (· > ·) (strides [2, 3]) :=
  ⟨row_major_last_fastest.1 [2, 3] [1] 1 (by decide),
   row_major_last_fastest.2.1 [2, 3] [1, 2],
   row_major_last_fastest.2.2 [2, 3] (by decide)⟩

/-- C2: a periodic component is reduced with a true mathematical modulo of
the axis point count (the result is a natural number below the point count),
components and coordinates differing by whole periods resolve to the same
lattice point, and a non-periodic out-of-range component is a boundary error
(`none`), which makes the whole multi-index access fail. -/
theorem periodic_modulo_boundary_error (n : ℕ) (i : ℤ) (hn : 0 < n) :
    (wrapComponent true n i = some (i % (n : ℤ)).toNat ∧
      (i % (n : ℤ)).toNat < n) ∧
    (∀ k : ℤ, wrapComponent true n (i + k * n) = wrapComponent true n i) ∧
    (∀ (gmin dx x : ℚ), 0 < dx → ∀ k : ℤ,
      coordComponent true gmin dx n (x + k * (n * dx)) =
        coordComponent true gmin dx n x) ∧
    ((i < 0 ∨ (n : ℤ) ≤ i) → wrapComponent false n i = none) ∧
    (∀ (ns : List ℕ) (ps : List Bool) (ks : List ℤ),
      wrapComponent false n i = none →
      wrapIndices (n :: ns) (false :: ps) (i :: ks) = none) := by
  have hnz : (n : ℤ) ≠ 0 := by exact_mod_cast hn.ne'
  have hpos : (0 : ℤ) < n := by exact_mod_cast hn
  refine ⟨⟨rfl, ?_⟩, ?_, ?_, ?_, ?_⟩
  · have h1 : 0 ≤ i % (n : ℤ) := Int.emod_nonneg i hnz
    have h2 : i % (n : ℤ) < n := Int.emod_lt_of_pos i hpos
    omega
  · intro k
    simp [wrapComponent, Int.add_mul_emod_self]
  · intro gmin dx x hdx k
    have hfl : ⌊(x + k * (n * dx) - gmin) / dx⌋ = ⌊(x - gmin) / dx⌋ + k * n := by
      have hne : dx ≠ 0 := hdx.ne'
      have hq : (x + k * (n * dx) - gmin) / dx =
          (x - gmin) / dx + ((k * n : ℤ) : ℚ) := by
        push_cast
        field_simp
        ring
      rw [hq, Int.floor_add_int]
    rw [coordComponent, coordComponent, hfl]
    simp [wrapComponent, Int.add_mul_emod_self]
  · intro h
    have hni : ¬(0 ≤ i ∧ i < (n : ℤ)) := by omega
    simp [wrapComponent, hni]
  · intro ns ps ks h
    rw [wrapIndices, h]

/-- Witness for C2 on a periodic axis with 10 points (bound `[0,10)`,
`dx = 1`): component `-3` wraps to `7`, whole periods are invisible, and
coordinate `0.5 + 10` resolves like `0.5`; on a non-periodic axis,
component `12` is a boundary error. -/
theorem periodic_modulo_boundary_error_witness :
    (wrapComponent true 10 (-3) = some ((-3 : ℤ) % (10 : ℤ)).toNat ∧
      ((-3 : ℤ) % (10 : ℤ)).toNat < 10) ∧
    wrapComponent true 10 (-3 + 2 * 10) = wrapComponent true 10 (-3) ∧
    coordComponent true 0 1 10 (1 / 2 + 1 * (10 * 1)) =
      coordComponent true 0 1 10 (1 / 2) ∧
    wrapComponent false 10 12 = none ∧
    wrapIndices [10] [false] [12] = none := by
  have h3 := periodic_modulo_boundary_error 10 (-3) (by decide)
  have h12 := periodic_modulo_boundary_error 10 12 (by decide)
  have hout : wrapComponent false 10 12 = none :=
    h12.2.2.2.1 (Or.inr (by decide))
  exact ⟨h3.1, h3.2.1 2, h3.2.2.1 0 1 (1 / 2) (by decide) 1, hout,
    h12.2.2.2.2 [] [] [] hout⟩

/-! ## Weighting strategies (`WeightBase`, `BiasWeight`, `ProbWeight`)

These classes are defined inline in `Grid.h` (lines 36–57), so they are
embedded directly from the source. -/

/-- `WeightBase` from `Grid.h`: the two-operation projection contract. -/
structure WeightBase where
  projectInnerLoop : ℝ → ℝ → ℝ
  projectOuterLoop : ℝ → ℝ

/-- `BiasWeight` from `Grid.h`: fields `beta` and `invbeta`. -/
structure BiasWeight where
  beta : ℝ
  invbeta : ℝ

/-- The `BiasWeight(double v)` constructor: `beta=v; invbeta=1./beta`. -/
noncomputable def BiasWeight.ofBeta (v : ℝ) : BiasWeight := ⟨v, 1 / v⟩

/-- `BiasWeight::projectInnerLoop`: `return input+exp(beta*v);`. -/
noncomputable def BiasWeight.projectInnerLoop (w : BiasWeight)
    (input v : ℝ) : ℝ :=
  input + Real.exp (w.beta * v)

/-- `BiasWeight::projectOuterLoop`: `return -invbeta*std::log(v);`. -/
noncomputable def BiasWeight.projectOuterLoop (w : BiasWeight) (v : ℝ) : ℝ :=
  -w.invbeta * Real.log v

/-- `ProbWeight` from `Grid.h`: fields `beta` and `invbeta`. -/
structure ProbWeight where
  beta : ℝ
  invbeta : ℝ

/-- The `ProbWeight(double v)` constructor: `beta=v; invbeta=1./beta`. -/
noncomputable def ProbWeight.ofBeta (v : ℝ) : ProbWeight := ⟨v, 1 / v⟩

/-- `ProbWeight::projectInnerLoop`: `return input+v;`. -/
def ProbWeight.projectInnerLoop (w : ProbWeight) (input v : ℝ) : ℝ :=
  input + v

/-- `ProbWeight::projectOuterLoop`: `return -invbeta*std::log(v);`. -/
noncomputable def ProbWeight.projectOuterLoop (w : ProbWeight) (v : ℝ) : ℝ :=
  -w.invbeta * Real.log v

/-- The `WeightBase` view of a `ProbWeight`. -/
noncomputable def ProbWeight.toWeightBase (w : ProbWeight) : WeightBase :=
  ⟨w.projectInnerLoop, w.projectOuterLoop⟩

/-- C8: the inner and outer loops of both weighting strategies compute the
stated formulas, and in particular both outer loops apply the
`-(1/β)·log` normalization, so neither outer loop is the identity. -/
theorem weight_strategy_loops :
    (∀ β input v : ℝ,
      (BiasWeight.ofBeta β).projectInnerLoop input v =
        input + Real.exp (β * v)) ∧
    (∀ β v : ℝ,
      (BiasWeight.ofBeta β).projectOuterLoop v = -(1 / β) * Real.log v) ∧
    (∀ β input v : ℝ,
      (ProbWeight.ofBeta β).projectInnerLoop input v = input + v) ∧
    (∀ β v : ℝ,
      (ProbWeight.ofBeta β).projectOuterLoop v = -(1 / β) * Real.log v) ∧
    (∃ v : ℝ, (BiasWeight.ofBeta 1).projectOuterLoop v ≠ v) ∧
    (∃ v : ℝ, (ProbWeight.ofBeta 1).projectOuterLoop v ≠ v) := by
  refine ⟨fun _ _ _ => rfl, fun _ _ => rfl, fun _ _ _ => rfl, fun _ _ => rfl,
    ⟨1, ?_⟩, ⟨1, ?_⟩⟩ <;>
    simp [BiasWeight.projectOuterLoop, ProbWeight.projectOuterLoop,
      BiasWeight.ofBeta, ProbWeight.ofBeta]

/-! ## Projection of a 2-D grid onto one axis -/

/-- Modelled from the spec: `Grid::project` (body in the missing `Grid.cpp`)
specialized to a 2-D grid of shape `n0 × n1` projected onto its first axis:
for every reduced point the values along the dropped axis are folded with
`projectInnerLoop` starting from `0` and the accumulator is finalized with
`projectOuterLoop`. -/
noncomputable def project2D (W : WeightBase) (n0 n1 : ℕ) (g : ℕ → ℝ)
    (i0 : ℕ) : ℝ :=
  W.projectOuterLoop
    ((List.range n1).foldl
      (fun acc i1 => W.projectInnerLoop acc (g (getIndex [n0, n1] [i0, i1])))
      0)

/-- Counterexample to C6 as stated: projecting the constant-1 grid of shape
1×2 with `ProbWeight` (β = 1) does not give `1 × 2`, because the outer
normalization `-(1/β)·log` is applied to the raw sum. -/
theorem project_probweight_not_raw_sum :
    project2D (ProbWeight.ofBeta 1).toWeightBase 1 2 (fun _ => 1) 0 ≠
      1 * 2 := by
  have hlog : 0 < Real.log 2 := Real.log_pos (by norm_num)
  have hval : project2D (ProbWeight.ofBeta 1).toWeightBase 1 2
      (fun _ => 1) 0 = -(1 : ℝ) * Real.log 2 := by
    show (ProbWeight.ofBeta 1).projectOuterLoop
        ((List.range 2).foldl (fun acc _ => acc + 1) 0) = -(1 : ℝ) * Real.log 2
    norm_num [ProbWeight.projectOuterLoop, ProbWeight.ofBeta,
      List.range_succ]
  rw [hval]
  intro h
  nlinarith

/-- C6 amended: projecting a 2-D grid holding the constant value `v`
onto one axis with the raw-sum strategy `ProbWeight` yields, at every
reduced point, the outer normalization `-(1/β)·log` applied to the raw sum
`n1 · v` over the dropped axis (not the raw sum itself). -/
theorem project_probweight_constant (β v : ℝ) (n0 n1 : ℕ) (i0 : ℕ) :
    project2D (ProbWeight.ofBeta β).toWeightBase n0 n1 (fun _ => v) i0 =
      -(1 / β) * Real.log (n1 * v) := by
  have hfold : ∀ (l : List ℕ) (a : ℝ),
      l.foldl (fun acc _ => acc + v) a = a + l.length * v := by
    intro l
    induction l with
    | nil => intro a; simp
    | cons x xs ih => intro a; simp [ih]; ring
  show (ProbWeight.ofBeta β).projectOuterLoop
      ((List.range n1).foldl (fun acc _ => acc + v) 0) = _
  rw [hfold, ProbWeight.projectOuterLoop]
  simp [ProbWeight.ofBeta]

/-! ## Log transform of all values -/

/-- Modelled from the spec: `Grid::logAllValuesAndDerivatives` (body in the
missing `Grid.cpp`): replace every stored value `v` with `scalef·ln v`.
Per the spec's error-handling design, the transform must fail/flag when
some stored value is non-positive rather than silently propagate NaN/Inf,
so the model reports `none` in that case.  The spec specifies only the
value transform, so the model carries the value buffer. -/
noncomputable def logAllValuesAndDerivatives (scalef : ℝ) (vals : List ℝ) :
    Option (List ℝ) :=
  haveI := Classical.dec (∃ v ∈ vals, v ≤ 0)
  if ∃ v ∈ vals, v ≤ 0 then none
  else some (vals.map fun v => scalef * Real.log v)

/-- C7: when some stored value is non-positive the log transform flags the
domain error (`none`) instead of storing junk; otherwise it performs the
`scalef·ln` transform. -/
theorem log_transform_flags_nonpositive (scalef : ℝ) (vals : List ℝ) :
    ((∃ v ∈ vals, v ≤ 0) →
      logAllValuesAndDerivatives scalef vals = none) ∧
    ((∀ v ∈ vals, 0 < v) →
      logAllValuesAndDerivatives scalef vals =
        some (vals.map fun v => scalef * Real.log v)) := by
  constructor
  · intro h
    rw [logAllValuesAndDerivatives, if_pos h]
  · intro h
    have hne : ¬∃ v ∈ vals, v ≤ 0 := by
      push_neg
      intro v hv
      exact h v hv
    rw [logAllValuesAndDerivatives, if_neg hne]

/-- Witness for C7: a grid holding the value `0` is flagged, a grid holding
only `1` is transformed. -/
theorem log_transform_flags_nonpositive_witness :
    logAllValuesAndDerivatives 1 [0, 1] = none ∧
    logAllValuesAndDerivatives 1 [1] =
      some ([1].map fun v => 1 * Real.log v) :=
  ⟨(log_transform_flags_nonpositive 1 [0, 1]).1 ⟨0, by norm_num⟩,
   (log_transform_flags_nonpositive 1 [1]).2 (by norm_num)⟩

/-! ## `FunctionVessel::applyForce` (`src/vesselbase/FunctionVessel.cpp`) -/

/-- `FunctionVessel::applyForce` from `FunctionVessel.cpp` (lines 70–78),
embedded from the source: a scratch vector `tmpforce` of the same size as
`forces` is zero-initialized, `forces` is overwritten with zeros, and if
`final_value->applyForce(tmpforce)` reports success the scratch contents are
added onto the zeroed `forces`.  `Value::applyForce` lives outside this
source tree, so it is a parameter: applied to the zero-initialized scratch
vector it returns the success flag and the scratch vector's final
contents. -/
def applyForce (valueApply : List ℝ → Bool × List ℝ) (forces : List ℝ) :
    Bool × List ℝ :=
  let tmpforce : List ℝ := List.replicate forces.length 0
  let zeroed : List ℝ := List.replicate forces.length 0
  let r := valueApply tmpforce
  if r.1 then (true, List.zipWith (· + ·) zeroed r.2)
  else (false, zeroed)

theorem zipWith_add_replicate_zero :
    ∀ (l : List ℝ) (n : ℕ), l.length = n →
      List.zipWith (· + ·) (List.replicate n (0 : ℝ)) l = l := by
  intro l
  induction l with
  | nil => intro n h; simp
  | cons x xs ih =>
    intro n h
    cases n with
    | zero => simp at h
    | succ m =>
      rw [List.replicate_succ, List.zipWith_cons_cons, zero_add,
        ih m (by simpa using h)]

/-- C9: `FunctionVessel::applyForce` overwrites `forces` (its prior contents
never contribute); on success it returns `true` with `forces` equal to the
force vector produced by `final_value`, otherwise it returns `false` with
`forces` all zeros. -/
theorem applyForce_overwrites (valueApply : List ℝ → Bool × List ℝ)
    (forces : List ℝ)
    (hlen : (valueApply (List.replicate forces.length 0)).2.length =
      forces.length) :
    (∀ g : List ℝ, g.length = forces.length →
      applyForce valueApply g = applyForce valueApply forces) ∧
    ((valueApply (List.replicate forces.length 0)).1 = true →
      applyForce valueApply forces =
        (true, (valueApply (List.replicate forces.length 0)).2)) ∧
    ((valueApply (List.replicate forces.length 0)).1 = false →
      applyForce valueApply forces =
        (false, List.replicate forces.length 0)) := by
  refine ⟨?_, ?_, ?_⟩
  · intro g hg
    rw [applyForce, applyForce, hg]
  · intro hs
    rw [applyForce]
    simp only [hs, if_true]
    rw [zipWith_add_replicate_zero _ _ hlen]
  · intro hf
    rw [applyForce]
    simp [hf]

/-- Witness for C9: with a `final_value` that succeeds and returns the
scratch vector incremented by one, the result is `true` with exactly that
vector regardless of the prior contents of `forces`; with one that fails,
the result is `false` with zeros. -/
theorem applyForce_overwrites_witness :
    applyForce (fun l => (true, l.map (fun x => x + 1))) [1, 2] =
      applyForce (fun l => (true, l.map (fun x => x + 1))) [5, 7] ∧
    applyForce (fun l => (true, l.map (fun x => x + 1))) [5, 7] =
      (true, ((List.replicate ([5, 7] : List ℝ).length (0 : ℝ)).map
        (fun x => x + 1))) ∧
    applyForce (fun l => (false, l)) [5, 7] =
      (false, List.replicate ([5, 7] : List ℝ).length (0 : ℝ)) :=
  ⟨(applyForce_overwrites (fun l => (true, l.map (fun x => x + 1))) [5, 7]
      (by simp)).1 [1, 2] (by simp),
   (applyForce_overwrites (fun l => (true, l.map (fun x => x + 1))) [5, 7]
      (by simp)).2.1 rfl,
   (applyForce_overwrites (fun l => (false, l)) [5, 7]
      (by simp)).2.2 rfl⟩

/-! ## The `maxdim` bound on the grid dimension -/

/-- `Grid::maxdim` from `Grid.h` (line 82): the maximum dimension. -/
def maxdim : ℕ := 64

/-- The validated axis metadata produced by grid construction. -/
structure GridShape where
  dimension_ : ℕ
  nbin_ : List ℕ
  pbc_ : List Bool
deriving DecidableEq

/-- `Grid::getDimension`: the grid's dimension count. -/
def GridShape.getDimension (g : GridShape) : ℕ := g.dimension_

/-- Modelled from the spec: `Grid::Init` (body in the missing `Grid.cpp`),
the "real initializator".  Configuration errors — mismatched axis counts
between the descriptor arrays or non-positive bin counts — are fatal at
construction, and the dimension count respects the `maxdim` bound that
`Grid.h` documents as the "Maximum dimension". -/
def Init (names : List String) (gmin gmax : List ℚ) (nbin : List ℕ)
    (isperiodic : List Bool) : Option GridShape :=
  if names.length = gmin.length ∧ names.length = gmax.length ∧
      names.length = nbin.length ∧ names.length = isperiodic.length ∧
      names.length ≤ maxdim ∧ ∀ n ∈ nbin, 0 < n then
    some ⟨names.length, nbin, isperiodic⟩
  else none

/-- C10: every successfully constructed grid has at most `maxdim = 64`
dimensions. -/
theorem dimension_le_maxdim (names : List String) (gmin gmax : List ℚ)
    (nbin : List ℕ) (isperiodic : List Bool) (g : GridShape)
    (h : Init names gmin gmax nbin isperiodic = some g) :
    g.getDimension ≤ maxdim ∧ maxdim = 64 := by
  refine ⟨?_, rfl⟩
  rw [Init] at h
  split at h
  · rename_i hc
    cases h
    exact hc.2.2.2.2.1
  · exact absurd h (by simp)

/-- Witness for C10: a concrete one-dimensional grid constructs
successfully and its dimension is within the bound. -/
theorem dimension_le_maxdim_witness :
    (⟨1, [10], [false]⟩ : GridShape).getDimension ≤ maxdim ∧ maxdim = 64 :=
  dimension_le_maxdim ["x"] [0] [1] [10] [false] ⟨1, [10], [false]⟩
    (by decide)

/-! ## Dense versus sparse storage backends

The spec describes two interchangeable backends behind one contract: the
dense one (class `Grid`) addresses a preallocated buffer of the full lattice
size; the sparse one (class `SparseGrid`) keeps an associative map in which
absent entries read as zero value and zero gradient.  The bodies live in the
missing `Grid.cpp`, so both backends are modelled from the spec. -/

/-- One call of the mutating storage interface shared by `Grid` and
`SparseGrid` (`setValue`, `setValueAndDerivatives`, `addValue`,
`addValueAndDerivatives`, each keyed by a flat index). -/
inductive GridOp
  | setValue (index : ℕ) (value : ℝ)
  | setValueAndDerivatives (index : ℕ) (value : ℝ) (der : List ℝ)
  | addValue (index : ℕ) (value : ℝ)
  | addValueAndDerivatives (index : ℕ) (value : ℝ) (der : List ℝ)

/-- The flat index touched by a storage call. -/
def GridOp.index : GridOp → ℕ
  | setValue i _ => i
  | setValueAndDerivatives i _ _ => i
  | addValue i _ => i
  | addValueAndDerivatives i _ _ => i

/-- A storage call is well-formed for a grid of `size` points and `dim`
dimensions when its index is in range and its derivative vector (if any)
has one entry per dimension. -/
def GridOp.wf (size dim : ℕ) : GridOp → Prop
  | setValue i _ => i < size
  | setValueAndDerivatives i _ d => i < size ∧ d.length = dim
  | addValue i _ => i < size
  | addValueAndDerivatives i _ d => i < size ∧ d.length = dim

theorem GridOp.wf_index_lt {size dim : ℕ} :
    ∀ op : GridOp, op.wf size dim → op.index < size
  | .setValue _ _, h => h
  | .setValueAndDerivatives _ _ _, h => h.1
  | .addValue _ _, h => h
  | .addValueAndDerivatives _ _ _, h => h.1

/-- Modelled from the spec: the dense backend (class `Grid`), a preallocated
contiguous buffer of exactly the declared lattice size for the values and
one derivative vector per point. -/
structure DenseGrid where
  grid_ : List ℝ
  der_ : List (List ℝ)

/-- A freshly cleared dense grid: zero value and zero gradient everywhere. -/
def DenseGrid.init (size dim : ℕ) : DenseGrid :=
  ⟨List.replicate size 0, List.replicate size (List.replicate dim 0)⟩

/-- Dense `getValue`. -/
def DenseGrid.getValue (G : DenseGrid) (i : ℕ) : ℝ := G.grid_.getD i 0

/-- Dense `getValueAndDerivatives`. -/
def DenseGrid.getValueAndDerivatives (G : DenseGrid) (dim i : ℕ) :
    ℝ × List ℝ :=
  (G.grid_.getD i 0, G.der_.getD i (List.replicate dim 0))

/-- Dense `setValue` / `setValueAndDerivatives` / `addValue` /
`addValueAndDerivatives`: in-place update of the flat buffer, the `add`
family incrementing the stored value and gradient. -/
def DenseGrid.apply (G : DenseGrid) : GridOp → DenseGrid
  | .setValue i v => ⟨G.grid_.set i v, G.der_⟩
  | .setValueAndDerivatives i v d => ⟨G.grid_.set i v, G.der_.set i d⟩
  | .addValue i v => ⟨G.grid_.set i (G.grid_.getD i 0 + v), G.der_⟩
  | .addValueAndDerivatives i v d =>
      ⟨G.grid_.set i (G.grid_.getD i 0 + v),
       G.der_.set i
         (List.zipWith (· + ·)
           (G.der_.getD i (List.replicate d.length 0)) d)⟩

/-- Lookup in an associative map with a default for absent keys. -/
def lookupD {α : Type} (m : List (ℕ × α)) (i : ℕ) (dflt : α) : α :=
  (m.lookup i).getD dflt

/-- Modelled from the spec: the sparse backend (class `SparseGrid`), an
associative map keyed by flat index for the values (`map_`) and one for the
derivative vectors (`der_`); absent entries read as zero value and zero
gradient. -/
structure SparseGrid where
  map_ : List (ℕ × ℝ)
  derMap_ : List (ℕ × List ℝ)

/-- A fresh sparse grid: no occupied entries. -/
def SparseGrid.init : SparseGrid := ⟨[], []⟩

/-- Sparse `getValue`: absent entries read as `0`. -/
def SparseGrid.getValue (S : SparseGrid) (i : ℕ) : ℝ := lookupD S.map_ i 0

/-- Sparse `getValueAndDerivatives`: absent entries read as zero value and
zero gradient. -/
def SparseGrid.getValueAndDerivatives (S : SparseGrid) (dim i : ℕ) :
    ℝ × List ℝ :=
  (lookupD S.map_ i 0, lookupD S.derMap_ i (List.replicate dim 0))

/-- Sparse mutators: writes to non-existent entries create them, the `add`
family increments the (defaulted) stored value and gradient. -/
def SparseGrid.apply (S : SparseGrid) : GridOp → SparseGrid
  | .setValue i v => ⟨(i, v) :: S.map_, S.derMap_⟩
  | .setValueAndDerivatives i v d => ⟨(i, v) :: S.map_, (i, d) :: S.derMap_⟩
  | .addValue i v => ⟨(i, lookupD S.map_ i 0 + v) :: S.map_, S.derMap_⟩
  | .addValueAndDerivatives i v d =>
      ⟨(i, lookupD S.map_ i 0 + v) :: S.map_,
       (i, List.zipWith (· + ·)
         (lookupD S.derMap_ i (List.replicate d.length 0)) d) :: S.derMap_⟩

/-- Replaying a sequence of storage calls on the dense backend. -/
def replayDense (G : DenseGrid) (ops : List GridOp) : DenseGrid :=
  ops.foldl DenseGrid.apply G

/-- Replaying a sequence of storage calls on the sparse backend. -/
def replaySparse (S : SparseGrid) (ops : List GridOp) : SparseGrid :=
  ops.foldl SparseGrid.apply S

theorem lookupD_cons_eq {α : Type} (m : List (ℕ × α)) (i : ℕ) (v : α)
    (dflt : α) : lookupD ((i, v) :: m) i dflt = v := by
  simp [lookupD, List.lookup]

theorem lookupD_cons_ne {α : Type} (m : List (ℕ × α)) (i j : ℕ) (v : α)
    (dflt : α) (h : i ≠ j) : lookupD ((j, v) :: m) i dflt = lookupD m i dflt := by
  have hb : (i == j) = false := beq_eq_false_iff_ne.mpr h
  simp [lookupD, List.lookup, hb]

/-- The simulation invariant: the dense buffers have the declared size and
agree with the sparse maps at every in-range index. -/
def Inv (size dim : ℕ) (G : DenseGrid) (S : SparseGrid) : Prop :=
  G.grid_.length = size ∧ G.der_.length = size ∧
  (∀ i, i < size → G.grid_.getD i 0 = lookupD S.map_ i 0) ∧
  (∀ i, i < size →
    G.der_.getD i (List.replicate dim 0) =
      lookupD S.derMap_ i (List.replicate dim 0))

theorem getD_set_eq (l : List ℝ) (i : ℕ) (v d : ℝ) (h : i < l.length) :
    (l.set i v).getD i d = v := by
  rw [List.getD_eq_getElem?_getD, List.getElem?_set_self (by simpa using h)]
  rfl

theorem getD_set_ne (l : List ℝ) (i j : ℕ) (v d : ℝ) (h : i ≠ j) :
    (l.set i v).getD j d = l.getD j d := by
  rw [List.getD_eq_getElem?_getD, List.getElem?_set_ne h,
    List.getD_eq_getElem?_getD]

theorem getD_set_eq' (l : List (List ℝ)) (i : ℕ) (v d : List ℝ)
    (h : i < l.length) : (l.set i v).getD i d = v := by
  rw [List.getD_eq_getElem?_getD, List.getElem?_set_self (by simpa using h)]
  rfl

theorem getD_set_ne' (l : List (List ℝ)) (i j : ℕ) (v d : List ℝ)
    (h : i ≠ j) : (l.set i v).getD j d = l.getD j d := by
  rw [List.getD_eq_getElem?_getD, List.getElem?_set_ne h,
    List.getD_eq_getElem?_getD]

theorem Inv_apply {size dim : ℕ} {G : DenseGrid} {S : SparseGrid}
    (hI : Inv size dim G S) (op : GridOp) (hop : op.wf size dim) :
    Inv size dim (G.apply op) (S.apply op) := by
  obtain ⟨hg, hd, hv, hder⟩ := hI
  cases op with
  | setValue i v =>
    refine ⟨by simpa [DenseGrid.apply] using hg, hd, ?_, hder⟩
    intro j hj
    by_cases hij : i = j
    · subst hij
      rw [DenseGrid.apply, SparseGrid.apply]
      rw [getD_set_eq _ _ _ _ (hg ▸ hop), lookupD_cons_eq]
    · rw [DenseGrid.apply, SparseGrid.apply]
      rw [getD_set_ne _ _ _ _ _ hij, lookupD_cons_ne _ _ _ _ _ fun hji => hij hji.symm]
      exact hv j hj
  | addValue i v =>
    refine ⟨by simpa [DenseGrid.apply] using hg, hd, ?_, hder⟩
    intro j hj
    by_cases hij : i = j
    · subst hij
      rw [DenseGrid.apply, SparseGrid.apply]
      rw [getD_set_eq _ _ _ _ (hg ▸ hop), lookupD_cons_eq, hv i hop]
    · rw [DenseGrid.apply, SparseGrid.apply]
      rw [getD_set_ne _ _ _ _ _ hij, lookupD_cons_ne _ _ _ _ _ fun hji => hij hji.symm]
      exact hv j hj
  | setValueAndDerivatives i v d =>
    obtain ⟨hil, hdl⟩ := hop
    refine ⟨by simpa [DenseGrid.apply] using hg,
      by simpa [DenseGrid.apply] using hd, ?_, ?_⟩
    · intro j hj
      by_cases hij : i = j
      · subst hij
        rw [DenseGrid.apply, SparseGrid.apply]
        rw [getD_set_eq _ _ _ _ (hg ▸ hil), lookupD_cons_eq]
      · rw [DenseGrid.apply, SparseGrid.apply]
        rw [getD_set_ne _ _ _ _ _ hij, lookupD_cons_ne _ _ _ _ _ fun hji => hij hji.symm]
        exact hv j hj
    · intro j hj
      by_cases hij : i = j
      · subst hij
        rw [DenseGrid.apply, SparseGrid.apply]
        rw [getD_set_eq' _ _ _ _ (hd ▸ hil), lookupD_cons_eq]
      · rw [DenseGrid.apply, SparseGrid.apply]
        rw [getD_set_ne' _ _ _ _ _ hij, lookupD_cons_ne _ _ _ _ _ fun hji => hij hji.symm]
        exact hder j hj
  | addValueAndDerivatives i v d =>
    obtain ⟨hil, hdl⟩ := hop
    refine ⟨by simpa [DenseGrid.apply] using hg,
      by simpa [DenseGrid.apply] using hd, ?_, ?_⟩
    · intro j hj
      by_cases hij : i = j
      · subst hij
        rw [DenseGrid.apply, SparseGrid.apply]
        rw [getD_set_eq _ _ _ _ (hg ▸ hil), lookupD_cons_eq, hv i hil]
      · rw [DenseGrid.apply, SparseGrid.apply]
        rw [getD_set_ne _ _ _ _ _ hij, lookupD_cons_ne _ _ _ _ _ fun hji => hij hji.symm]
        exact hv j hj
    · intro j hj
      by_cases hij : i = j
      · subst hij
        rw [DenseGrid.apply, SparseGrid.apply]
        rw [getD_set_eq' _ _ _ _ (hd ▸ hil), lookupD_cons_eq, hdl,
          hder i hil]
      · rw [DenseGrid.apply, SparseGrid.apply]
        rw [getD_set_ne' _ _ _ _ _ hij, lookupD_cons_ne _ _ _ _ _ fun hji => hij hji.symm]
        exact hder j hj

theorem Inv_replay {size dim : ℕ} :
    ∀ (ops : List GridOp) (G : DenseGrid) (S : SparseGrid),
      Inv size dim G S → ops.Forall (GridOp.wf size dim) →
      Inv size dim (replayDense G ops) (replaySparse S ops) := by
  intro ops
  induction ops with
  | nil => intro G S hI _; exact hI
  | cons op rest ih =>
    intro G S hI hwf
    rw [List.forall_cons] at hwf
    exact ih _ _ (Inv_apply hI op hwf.1) hwf.2

theorem Inv_init (size dim : ℕ) :
    Inv size dim (DenseGrid.init size dim) SparseGrid.init := by
  refine ⟨by simp [DenseGrid.init], by simp [DenseGrid.init], ?_, ?_⟩
  · intro i hi
    simp [DenseGrid.init, SparseGrid.init, lookupD, List.lookup,
      List.getD_eq_getElem?_getD, List.getElem?_replicate, hi]
  · intro i hi
    simp [DenseGrid.init, SparseGrid.init, lookupD, List.lookup,
      List.getD_eq_getElem?_getD, List.getElem?_replicate, hi]

/-- C4: the dense and sparse backends, fed the identical sequence of
well-formed `set`/`add` calls from a fresh grid, report identical
`getValue` and `getValueAndDerivatives` results at every index touched by
the sequence. -/
theorem dense_sparse_equivalent (size dim : ℕ) (ops : List GridOp)
    (hwf : ops.Forall (GridOp.wf size dim)) :
    ∀ i ∈ ops.map GridOp.index,
      (replayDense (DenseGrid.init size dim) ops).getValue i =
        (replaySparse SparseGrid.init ops).getValue i ∧
      (replayDense (DenseGrid.init size dim) ops).getValueAndDerivatives dim i =
        (replaySparse SparseGrid.init ops).getValueAndDerivatives dim i := by
  intro i hi
  obtain ⟨_, _, hv, hder⟩ :=
    Inv_replay ops (DenseGrid.init size dim) SparseGrid.init
      (Inv_init size dim) hwf
  obtain ⟨op, hop, hidx⟩ := List.mem_map.mp hi
  have hlt : i < size := by
    have := (List.forall_iff_forall_mem.mp hwf) op hop
    exact hidx ▸ GridOp.wf_index_lt op this
  refine ⟨hv i hlt, ?_⟩
  rw [DenseGrid.getValueAndDerivatives, SparseGrid.getValueAndDerivatives,
    hv i hlt, hder i hlt]

/-- Witness for C4: a concrete five-call sequence on a 3-point,
1-dimensional grid, checked at touched index `1`. -/
theorem dense_sparse_equivalent_witness :
    (replayDense (DenseGrid.init 3 1)
        [GridOp.setValue 0 5, GridOp.addValue 0 2,
         GridOp.setValueAndDerivatives 1 3 [4],
         GridOp.addValueAndDerivatives 1 1 [2],
         GridOp.addValue 2 7]).getValue 1 =
      (replaySparse SparseGrid.init
        [GridOp.setValue 0 5, GridOp.addValue 0 2,
         GridOp.setValueAndDerivatives 1 3 [4],
         GridOp.addValueAndDerivatives 1 1 [2],
         GridOp.addValue 2 7]).getValue 1 ∧
    (replayDense (DenseGrid.init 3 1)
        [GridOp.setValue 0 5, GridOp.addValue 0 2,
         GridOp.setValueAndDerivatives 1 3 [4],
         GridOp.addValueAndDerivatives 1 1 [2],
         GridOp.addValue 2 7]).getValueAndDerivatives 1 1 =
      (replaySparse SparseGrid.init
        [GridOp.setValue 0 5, GridOp.addValue 0 2,
         GridOp.setValueAndDerivatives 1 3 [4],
         GridOp.addValueAndDerivatives 1 1 [2],
         GridOp.addValue 2 7]).getValueAndDerivatives 1 1 :=
  dense_sparse_equivalent 3 1
    [GridOp.setValue 0 5, GridOp.addValue 0 2,
     GridOp.setValueAndDerivatives 1 3 [4],
     GridOp.addValueAndDerivatives 1 1 [2],
     GridOp.addValue 2 7]
    (by simp [List.Forall, GridOp.wf]) 1 (by simp [GridOp.index])

/-! ## Maximin (widest-path) search over a finite graph

The spec describes `Grid::findMaximalPathMinimum` as a priority-driven
relaxation over the lattice graph whose "distance" is the minimum value seen
so far.  The algorithm is modelled as repeated relaxation sweeps (one per
vertex, which reaches the same fixpoint as the priority-queue schedule), and
is proved below to return exactly the maximum over all paths of the minimum
value visited. -/

section MaxiMin

variable {N : ℕ} (adj : Fin N → Fin N → Bool) (val : Fin N → ℚ)

/-- A path in the graph: a nonempty list of vertices that starts at `a`,
ends at `b`, and steps only along edges. -/
def IsPathList (a b : Fin N) (p : List (Fin N)) : Prop :=
  p.head? = some a ∧ p.getLast? = some b ∧
    List.Chain' (fun u v => adj u v = true) p

/-- The minimum stored value visited along a (nonempty) path. -/
def pathMin : List (Fin N) → ℚ
  | [] => 0
  | a :: as => as.foldl (fun m x => min m (val x)) (val a)

/-- `ReachMin s v m k`: some path of `k` edges from `s` to `v` visits
minimum value `m`. -/
inductive ReachMin (s : Fin N) : Fin N → ℚ → ℕ → Prop
  | base : ReachMin s s (val s) 0
  | step {u : Fin N} {m : ℚ} {k : ℕ} (v : Fin N) :
      ReachMin s u m k → adj u v = true →
      ReachMin s v (min m (val v)) (k + 1)

/-- One relaxation sweep: every vertex's best-known bottleneck value is
improved through each incoming edge. -/
def relax (d : Fin N → WithBot ℚ) : Fin N → WithBot ℚ :=
  fun v =>
    max (d v)
      ((Finset.univ.filter fun u => adj u v = true).sup
        fun u => min (d u) ((val v : WithBot ℚ)))

/-- The best-known bottleneck values after `k` relaxation sweeps, started
from the source alone (whose bottleneck is its own stored value). -/
def iterD (s : Fin N) : ℕ → Fin N → WithBot ℚ
  | 0 => fun v => if v = s then ((val v : WithBot ℚ)) else ⊥
  | k + 1 => relax adj val (iterD s k)

theorem iterD_le_succ (s : Fin N) (k : ℕ) (v : Fin N) :
    iterD adj val s k v ≤ iterD adj val s (k + 1) v :=
  le_max_left _ _

theorem iterD_mono (s : Fin N) {j k : ℕ} (h : j ≤ k) (v : Fin N) :
    iterD adj val s j v ≤ iterD adj val s k v := by
  induction k with
  | zero => exact Nat.le_zero.mp h ▸ le_refl _
  | succ n ih =>
    rcases Nat.lt_or_ge j (n + 1) with hj | hj
    · exact le_trans (ih (Nat.lt_succ_iff.mp hj)) (iterD_le_succ adj val s n v)
    · exact Nat.le_antisymm h hj ▸ le_refl _

/-- Soundness of the relaxation: every finite bottleneck value it reports
is realized by some path from the source. -/
theorem iterD_sound (s : Fin N) :
    ∀ (k : ℕ) (v : Fin N) (m : ℚ),
      iterD adj val s k v = (m : WithBot ℚ) →
      ∃ j : ℕ, ReachMin adj val s v m j := by
  intro k
  induction k with
  | zero =>
    intro v m h
    simp only [iterD] at h
    by_cases hv : v = s
    · rw [if_pos hv] at h
      have : val v = m := by exact_mod_cast h
      exact ⟨0, hv ▸ this ▸ ReachMin.base⟩
    · rw [if_neg hv] at h
      exact absurd h.symm (WithBot.coe_ne_bot)
  | succ n ih =>
    intro v m h
    rw [iterD, relax] at h
    rcases max_choice (iterD adj val s n v)
        ((Finset.univ.filter fun u => adj u v = true).sup
          fun u => min (iterD adj val s n u) ((val v : WithBot ℚ))) with
      hc | hc
    · exact ih v m (hc ▸ h)
    · rw [hc] at h
      rcases Finset.eq_empty_or_nonempty
          (Finset.univ.filter fun u => adj u v = true) with he | hne
      · rw [he, Finset.sup_empty] at h
        exact absurd h.symm WithBot.coe_ne_bot
      · obtain ⟨u, hu, hsup⟩ :=
          Finset.exists_mem_eq_sup _ hne
            (fun u => min (iterD adj val s n u) ((val v : WithBot ℚ)))
        rw [hsup] at h
        have hadj : adj u v = true := (Finset.mem_filter.mp hu).2
        cases hd : iterD adj val s n u with
        | bot => rw [hd] at h; simp at h
        | coe x =>
          rw [hd, ← WithBot.coe_min] at h
          have hx : min x (val v) = m := by exact_mod_cast h
          obtain ⟨j, hr⟩ := ih u x hd
          exact ⟨j + 1, hx ▸ ReachMin.step v hr hadj⟩

/-- Completeness of the relaxation: after `k` sweeps every path of at most
`k` edges is accounted for. -/
theorem iterD_complete (s : Fin N) :
    ∀ {v : Fin N} {m : ℚ} {k : ℕ},
      ReachMin adj val s v m k →
      (m : WithBot ℚ) ≤ iterD adj val s k v := by
  intro v m k h
  induction h with
  | base => simp [iterD]
  | @step u m' k' v' hr hadj ih =>
    rw [iterD, relax]
    refine le_trans ?_ (le_max_right _ _)
    refine le_trans ?_
      (Finset.le_sup (f := fun u => min (iterD adj val s k' u)
        ((val v' : WithBot ℚ)))
        (Finset.mem_filter.mpr ⟨Finset.mem_univ u, hadj⟩))
    rw [WithBot.coe_min]
    exact min_le_min ih (le_refl _)

theorem foldl_min_le_init (l : List (Fin N)) (a : ℚ) :
    l.foldl (fun m x => min m (val x)) a ≤ a := by
  induction l generalizing a with
  | nil => exact le_refl _
  | cons x xs ih => exact le_trans (ih (min a (val x))) (min_le_left _ _)

theorem foldl_min_le_mem {x : Fin N} :
    ∀ (l : List (Fin N)) (a : ℚ), x ∈ l →
      l.foldl (fun m y => min m (val y)) a ≤ val x := by
  intro l
  induction l with
  | nil => intro a h; exact absurd h (List.not_mem_nil _)
  | cons y ys ih =>
    intro a h
    rcases List.mem_cons.mp h with hxy | hxs
    · subst hxy
      exact le_trans (foldl_min_le_init val ys _) (min_le_right _ _)
    · exact ih _ hxs

theorem le_foldl_min {c : ℚ} :
    ∀ (l : List (Fin N)) (a : ℚ), c ≤ a → (∀ x ∈ l, c ≤ val x) →
      c ≤ l.foldl (fun m y => min m (val y)) a := by
  intro l
  induction l with
  | nil => intro a hc _; exact hc
  | cons y ys ih =>
    intro a hc h
    exact ih _ (le_min hc (h y (List.mem_cons_self _ _)))
      fun x hx => h x (List.mem_cons_of_mem _ hx)

theorem pathMin_le_of_mem {x : Fin N} {p : List (Fin N)} (h : x ∈ p) :
    pathMin val p ≤ val x := by
  cases p with
  | nil => exact absurd h (List.not_mem_nil _)
  | cons a as =>
    rcases List.mem_cons.mp h with hxa | hxs
    · subst hxa; exact foldl_min_le_init val as _
    · exact foldl_min_le_mem val as _ hxs

theorem le_pathMin {c : ℚ} {p : List (Fin N)} (hp : p ≠ [])
    (h : ∀ x ∈ p, c ≤ val x) : c ≤ pathMin val p := by
  cases p with
  | nil => exact absurd rfl hp
  | cons a as =>
    exact le_foldl_min val as _ (h a (List.mem_cons_self _ _))
      fun x hx => h x (List.mem_cons_of_mem _ hx)

theorem pathMin_concat (p : List (Fin N)) (v : Fin N) (hp : p ≠ []) :
    pathMin val (p ++ [v]) = min (pathMin val p) (val v) := by
  cases p with
  | nil => exact absurd rfl hp
  | cons a as => simp [pathMin, List.foldl_append]

/-- Every inductively tracked path is realized by a concrete vertex list. -/
theorem reachMin_to_path (s : Fin N) :
    ∀ {v : Fin N} {m : ℚ} {k : ℕ}, ReachMin adj val s v m k →
      ∃ p, IsPathList adj s v p ∧ pathMin val p = m ∧ p.length = k + 1 := by
  intro v m k h
  induction h with
  | base =>
    exact ⟨[s], ⟨rfl, rfl, List.chain'_singleton s⟩, by simp [pathMin], rfl⟩
  | @step u m' k' v' hr hadj ih =>
    obtain ⟨p, ⟨hh, hl, hc⟩, hm, hlen⟩ := ih
    have hp_ne : p ≠ [] := by
      intro h0; rw [h0] at hlen; simp at hlen
    refine ⟨p ++ [v'], ⟨?_, ?_, ?_⟩, ?_, ?_⟩
    · cases p with
      | nil => exact absurd rfl hp_ne
      | cons a as => exact hh
    · rw [List.getLast?_append_cons]; rfl
    · refine List.chain'_append.mpr ⟨hc, List.chain'_singleton v', ?_⟩
      intro y hy z hz
      rw [hl] at hy
      simp at hy hz
      rw [← hy, ← hz]
      exact hadj
    · rw [pathMin_concat val p v' hp_ne, hm]
    · simp [hlen]

/-- Every concrete path is tracked by the inductive relation. -/
theorem path_to_reachMin (s : Fin N) :
    ∀ (p : List (Fin N)) (v : Fin N), IsPathList adj s v p →
      ReachMin adj val s v (pathMin val p) (p.length - 1) := by
  intro p
  induction p using List.reverseRecOn with
  | nil =>
    intro v h
    exact absurd h.1 (by simp)
  | append_singleton q x ih =>
    intro v h
    obtain ⟨hh, hl, hc⟩ := h
    have hv : v = x := by
      rw [List.getLast?_append_cons] at hl
      simp at hl
      exact hl.symm
    subst hv
    cases q with
    | nil =>
      simp at hh
      subst hh
      simpa [pathMin] using ReachMin.base
    | cons a as =>
      have hts := List.chain'_append.mp hc
      have hq_last : ∃ u, (a :: as).getLast? = some u :=
        ⟨(a :: as).getLast (by simp), List.getLast?_eq_getLast _ _⟩
      obtain ⟨u, hu⟩ := hq_last
      have hadj : adj u v = true := by
        have := hts.2.2 u (by rw [hu]; rfl) v rfl
        exact this
      have hpath : IsPathList adj s u (a :: as) := ⟨by simpa using hh, hu, hts.1⟩
      have hr := ih u hpath
      have hstep := ReachMin.step v hr hadj
      rw [pathMin_concat val (a :: as) v (by simp)]
      have hlen : (a :: as ++ [v]).length - 1 = (a :: as).length - 1 + 1 := by
        simp
      rw [hlen]
      exact hstep

/-- A list that is not duplicate-free splits around a repeated element. -/
theorem exists_dup_split {α : Type} :
    ∀ p : List α, ¬p.Nodup →
      ∃ (xs : List α) (x : α) (ys zs : List α),
        p = xs ++ x :: (ys ++ x :: zs) := by
  intro p
  induction p with
  | nil => intro h; exact absurd List.nodup_nil h
  | cons a as ih =>
    intro h
    by_cases hmem : a ∈ as
    · obtain ⟨s1, t1, hst⟩ := List.append_of_mem hmem
      exact ⟨[], a, s1, t1, by simp [hst]⟩
    · have hnd : ¬as.Nodup := by
        intro hd
        exact h (List.nodup_cons.mpr ⟨hmem, hd⟩)
      obtain ⟨xs, x, ys, zs, he⟩ := ih hnd
      exact ⟨a :: xs, x, ys, zs, by simp [he]⟩

theorem head?_append_cons_congr {α : Type} (l : List α) (a : α)
    (t t' : List α) : (l ++ a :: t).head? = (l ++ a :: t').head? := by
  cases l <;> rfl

/-- Any path can be replaced by one visiting at most `N` vertices whose
minimum is at least as large: repeatedly cut the cycle between two visits
of a repeated vertex. -/
theorem path_shorten (a b : Fin N) :
    ∀ (n : ℕ) (p : List (Fin N)), p.length ≤ n → IsPathList adj a b p →
      ∃ q, IsPathList adj a b q ∧ q.length ≤ N ∧
        pathMin val p ≤ pathMin val q := by
  intro n
  induction n with
  | zero =>
    intro p hlen hp
    have : p = [] := List.length_eq_zero.mp (Nat.le_zero.mp hlen)
    rw [this] at hp
    exact absurd hp.1 (by simp)
  | succ n ih =>
    intro p hlen hp
    by_cases hnd : p.Nodup
    · refine ⟨p, hp, ?_, le_refl _⟩
      calc p.length ≤ Fintype.card (Fin N) := hnd.length_le_card
        _ = N := Fintype.card_fin N
    · obtain ⟨xs, x, ys, zs, he⟩ := exists_dup_split p hnd
      obtain ⟨hh, hl, hc⟩ := hp
      have hq0 : IsPathList adj a b (xs ++ x :: zs) := by
        refine ⟨?_, ?_, ?_⟩
        · rw [← hh, he]
          exact head?_append_cons_congr xs x zs (ys ++ x :: zs)
        · rw [← hl, he, List.getLast?_append_cons, List.getLast?_append_cons]
          have hx : (x :: (ys ++ x :: zs)) = (x :: ys) ++ (x :: zs) := by simp
          rw [hx, List.getLast?_append_cons]
        · rw [he] at hc
          have hsplit := List.chain'_append.mp hc
          refine List.chain'_append.mpr ⟨hsplit.1, ?_, ?_⟩
          · have hsuf : (x :: zs) <:+ (x :: (ys ++ x :: zs)) :=
              ⟨x :: ys, by simp⟩
            exact hsplit.2.1.suffix hsuf
          · intro y hy z hz
            simp at hz
            subst hz
            exact hsplit.2.2 y hy x rfl
      have hsub : ∀ y : Fin N, y ∈ xs ++ x :: zs → y ∈ p := by
        intro y hy
        rw [he]
        simp at hy ⊢
        tauto
      have hmin : pathMin val p ≤ pathMin val (xs ++ x :: zs) := by
        refine le_pathMin val (by simp) ?_
        intro y hy
        exact pathMin_le_of_mem val (hsub y hy)
      have hlt : (xs ++ x :: zs).length < p.length := by
        rw [he]
        simp only [List.length_append, List.length_cons]
        omega
      obtain ⟨q, hq, hqlen, hqmin⟩ :=
        ih (xs ++ x :: zs) (by omega) hq0
      exact ⟨q, hq, hqlen, le_trans hmin hqmin⟩

/-- Correctness of the relaxation algorithm: when the sink is reachable at
all, after `N` sweeps the sink's entry is attained by some path from the
source and dominates every path from the source — it is the exact
maximin/bottleneck value of the graph. -/
theorem iterD_is_maximin (s t : Fin N)
    (reach : ∃ p, IsPathList adj s t p) :
    (∃ p, IsPathList adj s t p ∧
      iterD adj val s N t = ((pathMin val p : ℚ) : WithBot ℚ)) ∧
    (∀ p, IsPathList adj s t p →
      ((pathMin val p : ℚ) : WithBot ℚ) ≤ iterD adj val s N t) := by
  have upper : ∀ p, IsPathList adj s t p →
      ((pathMin val p : ℚ) : WithBot ℚ) ≤ iterD adj val s N t := by
    intro p hp
    obtain ⟨q, hq, hqlen, hle⟩ :=
      path_shorten adj val s t p.length p (le_refl _) hp
    have hr := path_to_reachMin adj val s q t hq
    have h2 := iterD_complete adj val s hr
    have h3 := iterD_mono adj val s (by omega : q.length - 1 ≤ N) t
    calc ((pathMin val p : ℚ) : WithBot ℚ)
        ≤ ((pathMin val q : ℚ) : WithBot ℚ) := WithBot.coe_le_coe.mpr hle
      _ ≤ iterD adj val s (q.length - 1) t := h2
      _ ≤ iterD adj val s N t := h3
  refine ⟨?_, upper⟩
  obtain ⟨p0, hp0⟩ := reach
  have hle := upper p0 hp0
  cases hD : iterD adj val s N t with
  | bot =>
    rw [hD] at hle
    exact absurd hle (by simp)
  | coe m =>
    obtain ⟨j, hr⟩ := iterD_sound adj val s N t m hD
    obtain ⟨q, hq, hqm, _⟩ := reachMin_to_path adj val s hr
    exact ⟨q, hq, by rw [hqm]⟩

end MaxiMin

/-! ## The lattice graph and `Grid::findMaximalPathMinimum` -/

/-- Modelled from the spec: `Grid::getNearestNeighbors` (body in the missing
`Grid.cpp`): the multi-indices reached by exactly one lattice step (`+1` or
`-1`) along each axis independently, wrapping periodic axes and dropping
steps that leave a non-periodic axis. -/
def neighborIndexLists (nbin : List ℕ) (pbc : List Bool) (m : List ℕ) :
    List (List ℕ) :=
  (List.range m.length).flatMap fun k =>
    ([1, -1] : List ℤ).filterMap fun d =>
      match nbin[k]?, pbc[k]?, m[k]? with
      | some n, some p, some c =>
        (wrapComponent p n ((c : ℤ) + d)).map fun c2 => m.set k c2
      | _, _, _ => none

/-- The nearest neighbors of a flat index, as flat indices. -/
def nearestNeighborsFlat (nbin : List ℕ) (pbc : List Bool) (i : ℕ) :
    List ℕ :=
  (neighborIndexLists nbin pbc (getIndices nbin i)).map (getIndex nbin)

/-- The nearest-neighbor adjacency of the lattice graph on the flat
indices below the total lattice size `P`. -/
def latticeAdj (nbin : List ℕ) (pbc : List Bool) (P : ℕ) :
    Fin P → Fin P → Bool :=
  fun u v => decide ((v : ℕ) ∈ nearestNeighborsFlat nbin pbc (u : ℕ))

/-- The axis metadata and stored field of a grid, as used by the path
search: per-axis point counts, periodicity flags, lower bounds and
spacings, and the stored value at each flat index. -/
structure ModelGrid where
  nbin : List ℕ
  pbc : List Bool
  gmin : List ℚ
  dx : List ℚ
  values : ℕ → ℚ

/-- Modelled from the spec: per-axis resolution of a coordinate vector to a
multi-index (`Grid::getIndices` on a coordinate, body in the missing
`Grid.cpp`). -/
def coordIndices :
    List Bool → List ℚ → List ℚ → List ℕ → List ℚ → Option (List ℕ)
  | [], [], [], [], [] => some []
  | p :: ps, mn :: mns, d :: ds, n :: ns, x :: xs =>
    match coordComponent p mn d n x, coordIndices ps mns ds ns xs with
    | some c, some cs => some (c :: cs)
    | _, _ => none
  | _, _, _, _, _ => none

/-- Resolution of a coordinate vector to the flat index of its nearest
lattice point. -/
def ModelGrid.resolveCoord (g : ModelGrid) (x : List ℚ) : Option ℕ :=
  (coordIndices g.pbc g.gmin g.dx g.nbin x).map (getIndex g.nbin)

/-- Modelled from the spec: `Grid::findMaximalPathMinimum` (body in the
missing `Grid.cpp`): resolve `source` and `sink` to their nearest lattice
points and run the relaxation (the spec's priority-driven schedule reaches
the same fixpoint) over the nearest-neighbor lattice graph, reading off the
sink's bottleneck value. -/
def ModelGrid.findMaximalPathMinimum (g : ModelGrid)
    (source sink : List ℚ) : Option (WithBot ℚ) :=
  match g.resolveCoord source, g.resolveCoord sink with
  | some si, some ti =>
    if h : si < g.nbin.prod ∧ ti < g.nbin.prod then
      some (iterD (latticeAdj g.nbin g.pbc g.nbin.prod)
        (fun v => g.values (v : ℕ)) ⟨si, h.1⟩ g.nbin.prod ⟨ti, h.2⟩)
    else none
  | _, _ => none

/-- C3: `findMaximalPathMinimum(source, sink)` returns exactly the maximum,
over all paths of nearest-neighbor lattice points from the lattice point
nearest `source` to the lattice point nearest `sink`, of the minimum stored
field value visited along the path. -/
theorem findMaximalPathMinimum_is_maximin (g : ModelGrid)
    (source sink : List ℚ) (s t : Fin g.nbin.prod)
    (hs : g.resolveCoord source = some (s : ℕ))
    (ht : g.resolveCoord sink = some (t : ℕ))
    (reach : ∃ p, IsPathList (latticeAdj g.nbin g.pbc g.nbin.prod) s t p) :
    ∃ r : WithBot ℚ,
      g.findMaximalPathMinimum source sink = some r ∧
      (∃ p, IsPathList (latticeAdj g.nbin g.pbc g.nbin.prod) s t p ∧
        r = ((pathMin (fun v => g.values (v : ℕ)) p : ℚ) : WithBot ℚ)) ∧
      (∀ p, IsPathList (latticeAdj g.nbin g.pbc g.nbin.prod) s t p →
        ((pathMin (fun v => g.values (v : ℕ)) p : ℚ) : WithBot ℚ) ≤ r) := by
  obtain ⟨hex, hub⟩ :=
    iterD_is_maximin (latticeAdj g.nbin g.pbc g.nbin.prod)
      (fun v => g.values (v : ℕ)) s t reach
  refine ⟨iterD (latticeAdj g.nbin g.pbc g.nbin.prod)
      (fun v => g.values (v : ℕ)) s g.nbin.prod t, ?_, ?_, hub⟩
  · simp only [ModelGrid.findMaximalPathMinimum, hs, ht]
    rw [dif_pos ⟨s.isLt, t.isLt⟩]
  · obtain ⟨p, hp, heq⟩ := hex
    exact ⟨p, hp, heq⟩

/-- Witness for C3: on the 1-axis grid with two points (bounds `[0,1]`,
spacing 1, values `0` and `1`), the search from coordinate `[0]` to
coordinate `[1]` is the exact maximin over lattice paths. -/
theorem findMaximalPathMinimum_is_maximin_witness :
    ∃ r : WithBot ℚ,
      (ModelGrid.mk [2] [false] [0] [1] (fun i => (i : ℚ))).findMaximalPathMinimum
          [0] [1] = some r ∧
      (∃ p, IsPathList
          (latticeAdj [2] [false] (([2] : List ℕ).prod))
          ⟨0, by norm_num⟩ ⟨1, by norm_num⟩ p ∧
        r = ((pathMin
          (fun v : Fin (([2] : List ℕ).prod) =>
            ((fun i => (i : ℚ)) (v : ℕ))) p : ℚ) : WithBot ℚ)) ∧
      (∀ p, IsPathList
          (latticeAdj [2] [false] (([2] : List ℕ).prod))
          ⟨0, by norm_num⟩ ⟨1, by norm_num⟩ p →
        ((pathMin
          (fun v : Fin (([2] : List ℕ).prod) =>
            ((fun i => (i : ℚ)) (v : ℕ))) p : ℚ) : WithBot ℚ) ≤ r) :=
  findMaximalPathMinimum_is_maximin
    (ModelGrid.mk [2] [false] [0] [1] (fun i => (i : ℚ))) [0] [1]
    ⟨0, by norm_num⟩ ⟨1, by norm_num⟩
    (by norm_num [ModelGrid.resolveCoord, coordIndices, coordComponent,
      wrapComponent, getIndex, getIndices])
    (by norm_num [ModelGrid.resolveCoord, coordIndices, coordComponent,
      wrapComponent, getIndex, getIndices])
    ⟨[⟨0, by norm_num⟩, ⟨1, by norm_num⟩],
      rfl, rfl, by
        rw [List.chain'_cons]
        exact ⟨by decide, List.chain'_singleton _⟩⟩

end PLMD
